import Mathlib

/-!
Verification development for the ibrobot repository.

The Python source is shallowly embedded: strings are `List Char`, epoch
timestamps are `Int` (seconds), quantities and prices are `ℚ`, the SQLite
per-symbol bar table is an association list keyed by timestamp, and the
feed is an oracle parameter (a list of responses).  The long-running loops
are embedded as step functions (with explicit fuel where the Python loop
has no structural bound).
-/

/-! ### String helpers (src/core/bars_collector.py) -/

/-- The quarterly month cycle `MONTH_SEQ = ["H", "M", "U", "Z"]`
from `src/core/bars_collector.py`. -/
def MONTH_SEQ : List Char := ['H', 'M', 'U', 'Z']

/-- Embedding of Python `str.rfind(ch)`: index of the last occurrence of
`c` in `s`, or `-1` when `c` does not occur. -/
def rfindC : List Char → Char → Int
  | [], _ => -1
  | a :: rest, c =>
    if 0 ≤ rfindC rest c then rfindC rest c + 1
    else if a = c then 0 else -1

/-- Embedding of Python `str.strip()`: drop whitespace from both ends. -/
def pyStrip (s : List Char) : List Char :=
  ((s.dropWhile Char.isWhitespace).reverse.dropWhile Char.isWhitespace).reverse

/-- Embedding of `local_symbol.strip().upper()` as performed at the top of
`_parse_local_symbol`. -/
def pyNormalize (s : List Char) : List Char :=
  (pyStrip s).map Char.toUpper

/-- `max(local_symbol.rfind(m) for m in MONTH_SEQ)` from
`_parse_local_symbol`. -/
def monthMax (s : List Char) : Int :=
  max (max (rfindC s 'H') (rfindC s 'M')) (max (rfindC s 'U') (rfindC s 'Z'))

/-- Embedding of `_parse_local_symbol` (src/core/bars_collector.py, lines
19-35).  Returns `(root, month, year_tail)` or the `ValueError` message. -/
def parse_local_symbol (s0 : List Char) : Except String (List Char × Char × List Char) :=
  let s := pyNormalize s0
  let idx := monthMax s
  if idx ≤ 0 ∨ idx = (s.length : Int) - 1 then
    .error "could not parse localSymbol"
  else
    let i := idx.toNat
    let root := s.take i
    let mon := s.getD i ' '
    let year_tail := s.drop (i + 1)
    if year_tail = [] then .error "no year tail in localSymbol"
    else .ok (root, mon, year_tail)

/-- Embedding of Python `list.index` as used for `MONTH_SEQ.index(mon)`;
the out-of-list case is unreachable there because a successful parse only
returns characters found at a month position. -/
def listIndexOf : List Char → Char → Nat
  | [], _ => 0
  | a :: rest, c => if a = c then 0 else listIndexOf rest c + 1

/-- Digits of a decimal numeral, or `none` when the list is empty or holds
a non-digit character. -/
def digitsOf (s : List Char) : Option Nat :=
  if s = [] ∨ ¬ s.all Char.isDigit then none
  else some (s.foldl (fun acc c => acc * 10 + (c.toNat - 48)) 0)

/-- Embedding of Python `int(year_tail)` restricted to an optional leading
minus sign followed by decimal digits (the only shapes the program ever
feeds it). -/
def pyInt (s : List Char) : Except String Int :=
  match s with
  | '-' :: rest =>
    match digitsOf rest with
    | some n => .ok (-(n : Int))
    | none => .error "invalid literal for int"
  | _ =>
    match digitsOf s with
    | some n => .ok (n : Int)
    | none => .error "invalid literal for int"

/-- Worker for `natToChars`; the fuel strictly exceeds the number of
decimal digits, so it is never exhausted. -/
def natToCharsGo : Nat → Nat → List Char
  | 0, _ => []
  | fuel + 1, n =>
    if n < 10 then [Nat.digitChar n]
    else natToCharsGo fuel (n / 10) ++ [Nat.digitChar (n % 10)]

/-- Decimal digits of a natural number, as produced by Python `str`. -/
def natToChars (n : Nat) : List Char :=
  natToCharsGo (n + 1) n

/-- Embedding of the Python f-string conversion of an `int`. -/
def intToChars (i : Int) : List Char :=
  if i < 0 then '-' :: natToChars i.natAbs else natToChars i.toNat

/-- Embedding of `_neighbors_quarter` (src/core/bars_collector.py, lines
38-63), including the redundant general cyclic computation and the two
hard overrides for months H and Z. -/
def neighbors_quarter (ls : List Char) : Except String (List Char × List Char) :=
  match parse_local_symbol ls with
  | .error e => .error e
  | .ok (root, mon, year_tail) =>
    let i := listIndexOf MONTH_SEQ mon
    let prev_mon := MONTH_SEQ.getD ((i + 3) % 4) ' '
    let next_mon := MONTH_SEQ.getD ((i + 1) % 4) ' '
    match pyInt year_tail with
    | .error e => .error e
    | .ok year_int =>
      let next_year := if mon = 'Z' then year_int + 1 else year_int
      let prev_sym0 := root ++ prev_mon :: intToChars year_int
      let next_sym0 := root ++ next_mon :: intToChars next_year
      let prev_sym := if mon = 'H' then root ++ 'U' :: intToChars (year_int - 1) else prev_sym0
      let next_sym := if mon = 'Z' then root ++ 'H' :: intToChars (year_int + 1) else next_sym0
      .ok (prev_sym, next_sym)

/-! ### Bar storage (src/core/bars_collector.py) -/

/-- One stored bar row: the non-key columns of the per-symbol table created
by `_ensure_table` (`ts INTEGER PRIMARY KEY`, then open, high, low, close,
volume, wap, count). -/
structure BarRow where
  op : ℚ
  hi : ℚ
  lo : ℚ
  cl : ℚ
  volume : ℚ
  wap : ℚ
  count : Int
deriving DecidableEq

/-- A per-symbol SQLite table, keyed by timestamp.  The primary-key
invariant is the `Nodup` of the key column, preserved by the insert. -/
abbrev Table := List (Int × BarRow)

/-- `SELECT` of one row by its timestamp key. -/
def tblLookup : Table → Int → Option BarRow
  | [], _ => none
  | p :: rest, ts => if p.1 = ts then some p.2 else tblLookup rest ts

/-- Whether the table already holds a row with key `ts`. -/
def tblHas (t : Table) (ts : Int) : Bool :=
  t.any (fun p => p.1 = ts)

/-- Effect of `INSERT OR IGNORE` for a single row: a row whose key is
already present is skipped, otherwise it is appended. -/
def insertIgnoreRow (t : Table) (r : Int × BarRow) : Table :=
  if tblHas t r.1 then t else t ++ [r]

/-- Embedding of `_bulk_insert_ignore` (src/core/bars_collector.py, lines
321-325): `executemany` of `INSERT OR IGNORE`, processing the batch in
order. -/
def bulk_insert_ignore (t : Table) (rows : List (Int × BarRow)) : Table :=
  rows.foldl insertIgnoreRow t

/-- One bar of a feed response, after `_to_epoch` conversion of its date
(`formatDate=2` gives epoch seconds). -/
structure FeedBar where
  date : Int
  op : ℚ
  hi : ℚ
  lo : ℚ
  cl : ℚ
  volume : ℚ
  wap : ℚ
  barCount : Int
deriving DecidableEq

/-- The row tuple `(ts, open, high, low, close, volume, wap, barCount)`
built from one feed bar in both fetch paths. -/
def rowOfBar (b : FeedBar) : Int × BarRow :=
  (b.date, ⟨b.op, b.hi, b.lo, b.cl, b.volume, b.wap, b.barCount⟩)

/-- The row batch built from a feed response. -/
def rowsOf (bars : List FeedBar) : List (Int × BarRow) :=
  bars.map rowOfBar

/-- Python `max(ts for ts, *_ in rows)`; only evaluated on non-empty
batches by the program. -/
def maxTsOf (rows : List (Int × BarRow)) : Int :=
  match rows with
  | [] => 0
  | r :: rest => rest.foldl (fun acc p => max acc p.1) r.1

/-- Runtime state of one tracked symbol: its table plus the cached
`last_ts` entry of `self._tracked[symbol]`. -/
structure TrackState where
  table : Table
  last_ts : Option Int
deriving DecidableEq

/-- Embedding of `_incremental_fetch` (src/core/bars_collector.py, lines
234-259) given the feed response for the short trailing window: empty
responses are a no-op, otherwise every returned bar is upserted and the
cached `last_ts` becomes `max(last_ts or 0, new_tail)`. -/
def incremental_fetch (st : TrackState) (bars : List FeedBar) : TrackState :=
  if bars = [] then st
  else
    let rows := rowsOf bars
    if rows = [] then st
    else
      { table := bulk_insert_ignore st.table rows
        last_ts := some (max (st.last_ts.getD 0) (maxTsOf rows)) }

/-- One requested history window of the backfill loop: the request covers
`(reqStart, reqEnd]` (`endDateTime=cur_end`, `durationStr` seconds) and
fetched bars with `ts < keepFrom` are discarded before persistence. -/
structure ReqWindow where
  reqStart : Int
  reqEnd : Int
  keepFrom : Int
deriving DecidableEq

/-- Persistence of one backfill window (the body of the loop in
`_fetch_and_store_range`): keep only bars with `ts >= start`, bulk-insert
them, and advance the cached `last_ts`. -/
def store_window (keepFrom : Int) (st : TrackState) (bars : List FeedBar) : TrackState :=
  if bars = [] then st
  else
    let rows := rowsOf (bars.filter (fun b => keepFrom ≤ b.date))
    if rows = [] then st
    else
      { table := bulk_insert_ignore st.table rows
        last_ts := some (max (st.last_ts.getD 0) (maxTsOf rows)) }

/-- Embedding of the window loop of `_fetch_and_store_range`
(src/core/bars_collector.py, lines 261-298).  `s` and `curEnd` are the
mutable `start_dt` and `cur_end` in epoch seconds, `e` is `end_dt`, and
`feed` supplies one response per issued request.  The Python loop
condition `cur_end <= end_dt + 1s` never becomes false (because `cur_end`
is clamped to `end_dt`), so the recursion is bounded by explicit fuel. -/
def fetch_store_loop : Nat → List (List FeedBar) → Int → Int → Int → TrackState →
    TrackState × List ReqWindow
  | 0, _, _, _, _, st => (st, [])
  | fuel + 1, feed, s, curEnd, e, st =>
    if curEnd ≤ e + 1 then
      let dur := max (curEnd - s) 30
      let w : ReqWindow := ⟨curEnd - dur, curEnd, s⟩
      let st2 := store_window s st (feed.headD [])
      let s2 := curEnd + 1
      let ce2 := min (s2 + 86400) e
      let r := fetch_store_loop fuel feed.tail s2 ce2 e st2
      (r.1, w :: r.2)
    else (st, [])

/-- The initial backfill start time of `_backfill_from_db_tail`
(src/core/bars_collector.py, lines 213-232): `last_ts + 5` when a tail is
stored, otherwise `now - min(1 day, backfill_max_days)`, then clamped
below by `now - backfill_max_days`. -/
def backfillStart (lastTs : Option Int) (now maxDays : Int) : Int :=
  let start0 :=
    match lastTs with
    | none => now - min 1 maxDays * 86400
    | some l => l + 5
  max start0 (now - maxDays * 86400)

/-- Embedding of `_backfill_from_db_tail` followed by
`_fetch_and_store_range(symbol, start_dt, now)`: computes the start,
the first window end `min(start + 1 day, now)`, and runs the window
loop.  Also returns the sequence of issued feed requests. -/
def backfill_from_db_tail (fuel : Nat) (feed : List (List FeedBar)) (lastTs : Option Int)
    (now maxDays : Int) (st : TrackState) : TrackState × List ReqWindow :=
  let s := backfillStart lastTs now maxDays
  fetch_store_loop fuel feed s (min (s + 86400) now) now st

/-- One store-affecting run of the collector: an incremental tick with its
feed response, or a backfill run with its request responses. -/
inductive CollectorOp where
  | incr (bars : List FeedBar)
  | backfill (fuel : Nat) (feed : List (List FeedBar)) (lastTs : Option Int)
      (now maxDays : Int)
deriving DecidableEq

/-- All feed bars an operation can receive. -/
def opBars : CollectorOp → List FeedBar
  | .incr bars => bars
  | .backfill _ feed _ _ _ => feed.flatten

/-- Apply one collector operation to the tracked state. -/
def applyOp (st : TrackState) (op : CollectorOp) : TrackState :=
  match op with
  | .incr bars => incremental_fetch st bars
  | .backfill fuel feed lastTs now maxDays =>
    (backfill_from_db_tail fuel feed lastTs now maxDays st).1

/-- A sequence of collector operations: every reachable store state is
`runOps st ops` for some operation list. -/
def runOps (st : TrackState) (ops : List CollectorOp) : TrackState :=
  ops.foldl applyOp st

/-! ### Position watcher (src/robot.py, PortfolioWatcher) -/

/-- Long or short, as decided by `PortfolioWatcher._side`. -/
inductive Side where
  | LONG
  | SHORT
deriving DecidableEq

/-- `_side(qty)`: `LONG` when the quantity is positive, else `SHORT`. -/
def sideOf (qty : ℚ) : Side :=
  if 0 < qty then .LONG else .SHORT

/-- The classified business events of `_on_update_portfolio`, carrying the
data the handler derives for each branch. -/
inductive PosEvent where
  | Opened (side : Side) (qty : ℚ)
  | Closed (side : Side) (prevQty : ℚ)
  | Added (side : Side) (prevQty newQty : ℚ)
  | Reduced (side : Side) (prevQty newQty : ℚ)
  | Reversed (prevSide newSide : Side) (prevQty newQty : ℚ)
deriving DecidableEq

/-- The `self._baseline` dict of `PortfolioWatcher`: conId to quantity. -/
abbrev Baseline := List (Int × ℚ)

/-- Dict read: `self._baseline.get(con_id)`. -/
def blLookup : Baseline → Int → Option ℚ
  | [], _ => none
  | p :: rest, cid => if p.1 = cid then some p.2 else blLookup rest cid

/-- Dict write: `self._baseline[con_id] = qty` (replace in place, or append
a new entry, matching insertion-ordered dict semantics). -/
def blSet : Baseline → Int → ℚ → Baseline
  | [], cid, q => [(cid, q)]
  | p :: rest, cid, q => if p.1 = cid then (cid, q) :: rest else p :: blSet rest cid q

/-- Embedding of `PortfolioWatcher._on_update_portfolio` (src/robot.py,
lines 106-191): classify one snapshot update against the baseline, update
the baseline, and return the events fired.  `conId = none` models a
contract without `conId` (the handler returns at once). -/
def on_update_portfolio (bl : Baseline) (conId : Option Int) (newQty : ℚ) :
    Baseline × List PosEvent :=
  match conId with
  | none => (bl, [])
  | some cid =>
    let prev := (blLookup bl cid).getD 0
    if blLookup bl cid = none then
      (blSet bl cid newQty, [])
    else if prev ≠ 0 ∧ newQty ≠ 0 ∧ ¬(0 < prev ↔ 0 < newQty) then
      (blSet bl cid newQty, [.Reversed (sideOf prev) (sideOf newQty) prev newQty])
    else if prev = 0 ∧ newQty ≠ 0 then
      (blSet bl cid newQty, [.Opened (sideOf newQty) newQty])
    else if prev ≠ 0 ∧ newQty = 0 then
      (blSet bl cid newQty, [.Closed (sideOf prev) prev])
    else if prev ≠ 0 ∧ newQty ≠ 0 ∧ (0 < prev ↔ 0 < newQty) then
      if |newQty| > |prev| then
        (blSet bl cid newQty, [.Added (sideOf newQty) prev newQty])
      else if |newQty| < |prev| then
        (blSet bl cid newQty, [.Reduced (sideOf newQty) prev newQty])
      else (blSet bl cid newQty, [])
    else (blSet bl cid newQty, [])

/-- Feed a sequence of snapshot updates to the watcher, collecting all
events in order. -/
def run_updates (bl : Baseline) (updates : List (Option Int × ℚ)) :
    Baseline × List PosEvent :=
  updates.foldl
    (fun acc u =>
      let r := on_update_portfolio acc.1 u.1 u.2
      (r.1, acc.2 ++ r.2))
    (bl, [])

/-! ### Connection backoff (src/core/ib_connection.py) -/

/-- Embedding of the frozen dataclass `_Backoff` (src/core/ib_connection.py,
lines 15-26). -/
structure BackoffR where
  base : ℚ
  current : ℚ
  max_ : ℚ
deriving DecidableEq

/-- `_Backoff.next()`: double the current delay, capped at the maximum. -/
def BackoffR.next (b : BackoffR) : ℚ :=
  min (b.current * 2) b.max_

/-- `_Backoff.reset()`: back to the base delay. -/
def BackoffR.reset (b : BackoffR) : ℚ :=
  b.base

/-- The two retry-delay settings of `IBConfig` the monitor uses. -/
structure IBConfigR where
  base_retry_delay : ℚ
  max_retry_delay : ℚ
deriving DecidableEq

/-- One disconnected-state iteration of `IBConnectionService.monitor_forever`
(src/core/ib_connection.py, lines 58-89): the loop sleeps for the current
delay, attempts a connect, and on success rebuilds the backoff at the base
delay while on failure it doubles the current delay (capped).  Returns the
scheduled delay and the next backoff. -/
def monitorStep (cfg : IBConfigR) (b : BackoffR) (connected : Bool) : ℚ × BackoffR :=
  (b.current,
   if connected then ⟨cfg.base_retry_delay, cfg.base_retry_delay, cfg.max_retry_delay⟩
   else ⟨b.base, b.next, b.max_⟩)

/-- A run of disconnected-state iterations with the given connect
outcomes, collecting the scheduled delays in order. -/
def monitorRun (cfg : IBConfigR) : BackoffR → List Bool → List ℚ × BackoffR
  | b, [] => ([], b)
  | b, ok :: rest =>
    let step := monitorStep cfg b ok
    let r := monitorRun cfg step.2 rest
    (step.1 :: r.1, r.2)

/-! ### Telegram client (src/core/telegram.py) -/

/-- The `TELEGRAM` configuration fields `TelegramClient` reads. -/
structure TelegramCfg where
  enabled_logs : Bool
  enabled_trade : Bool
  chat_id_logs : String
  chat_id_trade : String

/-- `_MAX_LEN = 4000`. -/
def MAX_LEN : Nat := 4000

/-- Embedding of `TelegramClient._resolve_destination` (src/core/telegram.py,
lines 59-64): the `ValueError` raised for an unknown destination is the
`Except.error` case. -/
def resolve_destination (cfg : TelegramCfg) (dest : String) :
    Except String (String × Bool) :=
  if dest = "logs" then .ok (cfg.chat_id_logs, cfg.enabled_logs)
  else if dest = "trade" then .ok (cfg.chat_id_trade, cfg.enabled_trade)
  else .error ("unknown destination: " ++ dest)

/-- Python `text.rfind(ch, i, j)`: last occurrence of `c` in `[i, j)`, as
an absolute index, or `-1`. -/
def rfindRange (s : List Char) (c : Char) (i j : Nat) : Int :=
  let r := rfindC ((s.drop i).take (j - i)) c
  if 0 ≤ r then (i : Int) + r else -1

/-- The splitting loop of `TelegramClient._chunk` (src/core/telegram.py,
lines 66-85): cut at the last newline inside the window when one exists
past the window start, else cut at the window end.  The cursor `i`
strictly increases, so `s.length` steps of fuel are exact. -/
def chunkGo (limit : Nat) (s : List Char) : Nat → Nat → List (List Char)
  | 0, _ => []
  | fuel + 1, i =>
    if i < s.length then
      let j := min s.length (i + limit)
      let nl := rfindRange s '\n' i j
      if (i : Int) < nl then
        ((s.drop i).take (nl.toNat - i)) :: chunkGo limit s fuel (nl.toNat + 1)
      else
        ((s.drop i).take (j - i)) :: chunkGo limit s fuel j
    else []

/-- `TelegramClient._chunk(text, limit)`. -/
def pyChunk (s : List Char) (limit : Nat) : List (List Char) :=
  if s.length ≤ limit then [s] else chunkGo limit s s.length 0

/-- Embedding of `TelegramClient.send_text_sync` (src/core/telegram.py,
lines 32-47).  `post` is the oracle outcome of `_post_send_message` for
each chunk index (that method catches every exception and returns a
boolean).  A disabled destination returns `false` before any send; the
result is `true` only if every chunk was sent. -/
def send_text_sync (cfg : TelegramCfg) (text : List Char) (dest : String)
    (post : Nat → Bool) : Except String Bool :=
  match resolve_destination cfg dest with
  | .error e => .error e
  | .ok (_chat, enabled) =>
    if !enabled then .ok false
    else .ok ((pyChunk text MAX_LEN).enum.all (fun p => post p.1))

/-! ### Specification-side definitions and proof-support values -/

/-- Whether an `Except` computation succeeded (a raised exception is the
`error` case). -/
def exOk {ε α : Type} : Except ε α → Bool
  | .ok _ => true
  | .error _ => false

/-- Modelled from the spec: the month one step back in the cycle
H→M→U→Z for the non-rollover months (the spec treats the previous of H
separately, as month U of the prior year). -/
def specPrevMonth : Char → Char
  | 'M' => 'H'
  | 'U' => 'M'
  | _ => 'U'

/-- Modelled from the spec: the month one step forward in the cycle
H→M→U→Z for the non-rollover months (the spec treats the next of Z
separately, as month H of the following year). -/
def specNextMonth : Char → Char
  | 'H' => 'M'
  | 'M' => 'U'
  | _ => 'Z'

/-- Modelled from the spec: the `(previous, next)` pair of the roster rule
of the spec — step one position in the cycle with the year digit
unchanged, except that the previous of H is U with the year decremented
and the next of Z is H with the year incremented. -/
def specRoster (root : List Char) (mon : Char) (v : Nat) : List Char × List Char :=
  ((if mon = 'H' then root ++ 'U' :: intToChars ((v : Int) - 1)
    else root ++ [specPrevMonth mon, Nat.digitChar v]),
   (if mon = 'Z' then root ++ 'H' :: intToChars ((v : Int) + 1)
    else root ++ [specNextMonth mon, Nat.digitChar v]))

/-- `i` is the position of the last month letter of `t`. -/
def IsLastMonthIdx (t : List Char) (i : Nat) : Prop :=
  i < t.length ∧ t.getD i ' ' ∈ MONTH_SEQ ∧
    ∀ j, j < t.length → t.getD j ' ' ∈ MONTH_SEQ → j ≤ i

instance (t : List Char) (i : Nat) : Decidable (IsLastMonthIdx t i) :=
  inferInstanceAs (Decidable (_ ∧ _ ∧ _))

/-- Order on the cached `last_ts` values: an absent cache is below
everything, a present one must not shrink or disappear. -/
def optLe : Option Int → Option Int → Prop
  | none, _ => True
  | some _, none => False
  | some x, some y => x ≤ y

/-- A concrete stored row used by concrete instantiations. -/
def sampleRow : BarRow := ⟨1, 1, 1, 1, 0, 0, 0⟩

/-- A concrete aligned feed bar (`ts = 10`). -/
def sampleBar10 : FeedBar := ⟨10, 1, 1, 1, 1, 0, 0, 0⟩

/-- A concrete operation sequence whose feed bars are all 5-aligned. -/
def opsAligned : List CollectorOp := [.incr [sampleBar10]]

/-! ### Lemmas about the idempotent bulk insert -/

theorem tblHas_iff (t : Table) (ts : Int) :
    tblHas t ts = true ↔ ts ∈ t.map Prod.fst := by
  simp [tblHas, List.any_eq_true, List.mem_map]

theorem insertIgnoreRow_of_has (t : Table) (r : Int × BarRow)
    (h : tblHas t r.1 = true) : insertIgnoreRow t r = t := by
  simp [insertIgnoreRow, h]

theorem keys_subset_insertIgnoreRow (t : Table) (r : Int × BarRow) :
    t.map Prod.fst ⊆ (insertIgnoreRow t r).map Prod.fst := by
  unfold insertIgnoreRow
  split
  · exact fun x hx => hx
  · intro x hx
    simp only [List.map_append]
    exact List.mem_append_left _ hx

theorem mem_keys_insertIgnoreRow (t : Table) (r : Int × BarRow) :
    r.1 ∈ (insertIgnoreRow t r).map Prod.fst := by
  unfold insertIgnoreRow
  split
  · exact (tblHas_iff t r.1).mp (by assumption)
  · simp

theorem keys_subset_bulk (t : Table) (rows : List (Int × BarRow)) :
    t.map Prod.fst ⊆ (bulk_insert_ignore t rows).map Prod.fst := by
  induction rows generalizing t with
  | nil => exact fun x hx => hx
  | cons r rest ih =>
    intro x hx
    exact ih (insertIgnoreRow t r) (keys_subset_insertIgnoreRow t r hx)

theorem bulk_insert_ignore_twice (t : Table) (rows : List (Int × BarRow)) :
    bulk_insert_ignore (bulk_insert_ignore t rows) rows = bulk_insert_ignore t rows := by
  induction rows generalizing t with
  | nil => rfl
  | cons r rest ih =>
    show bulk_insert_ignore
        (insertIgnoreRow (bulk_insert_ignore (insertIgnoreRow t r) rest) r) rest =
      bulk_insert_ignore (insertIgnoreRow t r) rest
    rw [insertIgnoreRow_of_has]
    · exact ih (insertIgnoreRow t r)
    · exact (tblHas_iff _ _).mpr
        (keys_subset_bulk (insertIgnoreRow t r) rest (mem_keys_insertIgnoreRow t r))

theorem tblLookup_append_of_some (t l : Table) (ts : Int) (v : BarRow)
    (h : tblLookup t ts = some v) : tblLookup (t ++ l) ts = some v := by
  induction t with
  | nil => simp [tblLookup] at h
  | cons p rest ih =>
    by_cases hp : p.1 = ts
    · simpa [tblLookup, hp] using h
    · rw [List.cons_append]
      unfold tblLookup at h ⊢
      rw [if_neg hp] at h ⊢
      exact ih h

theorem tblLookup_insertIgnoreRow_of_some (t : Table) (r : Int × BarRow) (ts : Int)
    (v : BarRow) (h : tblLookup t ts = some v) :
    tblLookup (insertIgnoreRow t r) ts = some v := by
  unfold insertIgnoreRow
  split
  · exact h
  · exact tblLookup_append_of_some t [r] ts v h

theorem tblLookup_bulk_of_some (t : Table) (rows : List (Int × BarRow)) (ts : Int)
    (v : BarRow) (h : tblLookup t ts = some v) :
    tblLookup (bulk_insert_ignore t rows) ts = some v := by
  induction rows generalizing t with
  | nil => exact h
  | cons r rest ih =>
    exact ih (insertIgnoreRow t r) (tblLookup_insertIgnoreRow_of_some t r ts v h)

theorem nodup_keys_insertIgnoreRow (t : Table) (r : Int × BarRow)
    (h : (t.map Prod.fst).Nodup) : ((insertIgnoreRow t r).map Prod.fst).Nodup := by
  unfold insertIgnoreRow
  split
  · exact h
  · rename_i hhas
    have hnm : r.1 ∉ t.map Prod.fst := fun hc => hhas ((tblHas_iff t r.1).mpr hc)
    simp only [List.map_append, List.map_cons, List.map_nil]
    rw [List.nodup_append]
    refine ⟨h, List.nodup_singleton _, ?_⟩
    intro x hx hx1
    simp only [List.mem_singleton] at hx1
    exact hnm (hx1 ▸ hx)

theorem nodup_keys_bulk (t : Table) (rows : List (Int × BarRow))
    (h : (t.map Prod.fst).Nodup) :
    ((bulk_insert_ignore t rows).map Prod.fst).Nodup := by
  induction rows generalizing t with
  | nil => exact h
  | cons r rest ih =>
    exact ih (insertIgnoreRow t r) (nodup_keys_insertIgnoreRow t r h)

/-- C5: bar insertion is idempotent and never overwrites — inserting a
batch twice equals inserting it once, a row whose key already exists is
skipped with the stored value unchanged, and the primary-key invariant
(at most one row per timestamp) is preserved. -/
theorem insert_batch_idempotent (t : Table) (rows : List (Int × BarRow))
    (hnd : (t.map Prod.fst).Nodup) :
    bulk_insert_ignore (bulk_insert_ignore t rows) rows = bulk_insert_ignore t rows
    ∧ (∀ r : Int × BarRow, tblHas t r.1 = true → insertIgnoreRow t r = t)
    ∧ (∀ ts v, tblLookup t ts = some v →
        tblLookup (bulk_insert_ignore t rows) ts = some v)
    ∧ ((bulk_insert_ignore t rows).map Prod.fst).Nodup :=
  ⟨bulk_insert_ignore_twice t rows,
   fun r h => insertIgnoreRow_of_has t r h,
   fun ts v h => tblLookup_bulk_of_some t rows ts v h,
   nodup_keys_bulk t rows hnd⟩

/-- Instantiation of `insert_batch_idempotent` at a concrete table and a
concrete batch containing a duplicate key. -/
theorem insert_batch_idempotent_witness :
    bulk_insert_ignore (bulk_insert_ignore [((0 : Int), sampleRow)] [(0, sampleRow), (5, sampleRow)])
        [(0, sampleRow), (5, sampleRow)] =
      bulk_insert_ignore [((0 : Int), sampleRow)] [(0, sampleRow), (5, sampleRow)] :=
  (insert_batch_idempotent [((0 : Int), sampleRow)] [(0, sampleRow), (5, sampleRow)]
    (by decide)).1

/-! ### Key predicates preserved by the two persistence paths -/

theorem bulk_keys_pred (P : Int → Prop) (t : Table) (rows : List (Int × BarRow))
    (ht : ∀ p ∈ t, P p.1) (hr : ∀ r ∈ rows, P r.1) :
    ∀ p ∈ bulk_insert_ignore t rows, P p.1 := by
  induction rows generalizing t with
  | nil => exact ht
  | cons r rest ih =>
    refine ih (insertIgnoreRow t r) ?_ (fun x hx => hr x (List.mem_cons_of_mem r hx))
    intro p hp
    unfold insertIgnoreRow at hp
    split at hp
    · exact ht p hp
    · rcases List.mem_append.mp hp with hpl | hpr
      · exact ht p hpl
      · rw [List.mem_singleton.mp hpr]
        exact hr r (List.mem_cons_self r rest)

theorem rowsOf_keys (bars : List FeedBar) (p : Int × BarRow) (hp : p ∈ rowsOf bars) :
    ∃ b ∈ bars, p.1 = b.date := by
  rcases List.mem_map.mp hp with ⟨b, hb, rfl⟩
  exact ⟨b, hb, rfl⟩

/-! ### Characterizing equations for the persistence steps -/

theorem rowsOf_ne_nil (bars : List FeedBar) (h : bars ≠ []) : rowsOf bars ≠ [] := by
  simpa [rowsOf] using h

theorem incremental_fetch_eq (st : TrackState) (bars : List FeedBar) (h : bars ≠ []) :
    incremental_fetch st bars =
      { table := bulk_insert_ignore st.table (rowsOf bars)
        last_ts := some (max (st.last_ts.getD 0) (maxTsOf (rowsOf bars))) } := by
  simp [incremental_fetch, h, rowsOf_ne_nil bars h]

theorem store_window_eq (k : Int) (st : TrackState) (bars : List FeedBar)
    (hb : bars ≠ [])
    (hr : rowsOf (bars.filter (fun b => k ≤ b.date)) ≠ []) :
    store_window k st bars =
      { table := bulk_insert_ignore st.table (rowsOf (bars.filter (fun b => k ≤ b.date)))
        last_ts := some (max (st.last_ts.getD 0)
          (maxTsOf (rowsOf (bars.filter (fun b => k ≤ b.date))))) } := by
  simp only [store_window, if_neg hb, if_neg hr]

theorem store_window_cases (k : Int) (st : TrackState) (bars : List FeedBar) :
    store_window k st bars = st ∨
      store_window k st bars =
        { table := bulk_insert_ignore st.table (rowsOf (bars.filter (fun b => k ≤ b.date)))
          last_ts := some (max (st.last_ts.getD 0)
            (maxTsOf (rowsOf (bars.filter (fun b => k ≤ b.date))))) } := by
  by_cases hb : bars = []
  · exact Or.inl (by simp [store_window, hb])
  · by_cases hr : rowsOf (bars.filter (fun b => k ≤ b.date)) = []
    · exact Or.inl (by simp [store_window, hb, hr])
    · exact Or.inr (store_window_eq k st bars hb hr)

theorem incremental_fetch_cases (st : TrackState) (bars : List FeedBar) :
    incremental_fetch st bars = st ∨
      incremental_fetch st bars =
        { table := bulk_insert_ignore st.table (rowsOf bars)
          last_ts := some (max (st.last_ts.getD 0) (maxTsOf (rowsOf bars))) } := by
  by_cases hb : bars = []
  · exact Or.inl (by simp [incremental_fetch, hb])
  · exact Or.inr (incremental_fetch_eq st bars hb)

theorem fetch_store_loop_succ_pos (n : Nat) (feed : List (List FeedBar))
    (s curEnd e : Int) (st : TrackState) (h : curEnd ≤ e + 1) :
    fetch_store_loop (n + 1) feed s curEnd e st =
      ((fetch_store_loop n feed.tail (curEnd + 1) (min (curEnd + 1 + 86400) e) e
          (store_window s st (feed.headD []))).1,
       (⟨curEnd - max (curEnd - s) 30, curEnd, s⟩ : ReqWindow) ::
         (fetch_store_loop n feed.tail (curEnd + 1) (min (curEnd + 1 + 86400) e) e
            (store_window s st (feed.headD []))).2) := by
  simp [fetch_store_loop, h]

theorem fetch_store_loop_succ_neg (n : Nat) (feed : List (List FeedBar))
    (s curEnd e : Int) (st : TrackState) (h : ¬(curEnd ≤ e + 1)) :
    fetch_store_loop (n + 1) feed s curEnd e st = (st, []) := by
  simp [fetch_store_loop, h]

/-! ### Key predicates preserved by the two persistence paths -/

theorem incremental_fetch_table_pred (P : Int → Prop) (st : TrackState)
    (bars : List FeedBar) (hst : ∀ p ∈ st.table, P p.1)
    (hb : ∀ b ∈ bars, P b.date) :
    ∀ p ∈ (incremental_fetch st bars).table, P p.1 := by
  rcases incremental_fetch_cases st bars with he | he <;> rw [he]
  · exact hst
  · refine bulk_keys_pred P st.table (rowsOf bars) hst ?_
    intro r hr
    rcases rowsOf_keys bars r hr with ⟨b, hbm, hbe⟩
    exact hbe ▸ hb b hbm

theorem store_window_table_pred (P : Int → Prop) (k : Int) (st : TrackState)
    (bars : List FeedBar) (hst : ∀ p ∈ st.table, P p.1)
    (hb : ∀ b ∈ bars, k ≤ b.date → P b.date) :
    ∀ p ∈ (store_window k st bars).table, P p.1 := by
  rcases store_window_cases k st bars with he | he <;> rw [he]
  · exact hst
  · refine bulk_keys_pred P st.table _ hst ?_
    intro r hr
    rcases rowsOf_keys _ r hr with ⟨b, hbm, hbe⟩
    rcases List.mem_filter.mp hbm with ⟨hbb, hkb⟩
    exact hbe ▸ hb b hbb (by simpa using hkb)

theorem fetch_store_loop_table_pred (P : Int → Prop) (fuel : Nat)
    (feed : List (List FeedBar)) (s curEnd e : Int) (st : TrackState)
    (hst : ∀ p ∈ st.table, P p.1) (hbars : ∀ b ∈ feed.flatten, P b.date) :
    ∀ p ∈ (fetch_store_loop fuel feed s curEnd e st).1.table, P p.1 := by
  induction fuel generalizing feed s curEnd st with
  | zero => exact hst
  | succ n ih =>
    by_cases hc : curEnd ≤ e + 1
    · rw [fetch_store_loop_succ_pos n feed s curEnd e st hc]
      refine ih feed.tail (curEnd + 1) (min (curEnd + 1 + 86400) e) _ ?_ ?_
      · refine store_window_table_pred P s st (feed.headD []) hst ?_
        intro b hbm _
        refine hbars b ?_
        cases feed with
        | nil => simp at hbm
        | cons f fs => exact List.mem_flatten.mpr ⟨f, List.mem_cons_self f fs, hbm⟩
      · intro b hbm
        refine hbars b ?_
        cases feed with
        | nil => simp at hbm
        | cons f fs =>
          rcases List.mem_flatten.mp hbm with ⟨l, hl, hbl⟩
          exact List.mem_flatten.mpr ⟨l, List.mem_cons_of_mem f hl, hbl⟩
    · rw [fetch_store_loop_succ_neg n feed s curEnd e st hc]
      exact hst

theorem runOps_table_pred (P : Int → Prop) (st : TrackState) (ops : List CollectorOp)
    (hst : ∀ p ∈ st.table, P p.1)
    (hops : ∀ op ∈ ops, ∀ b ∈ opBars op, P b.date) :
    ∀ p ∈ (runOps st ops).table, P p.1 := by
  induction ops generalizing st with
  | nil => exact hst
  | cons op rest ih =>
    refine ih (applyOp st op) ?_ (fun o ho => hops o (List.mem_cons_of_mem op ho))
    have hop := hops op (List.mem_cons_self op rest)
    cases op with
    | incr bars => exact incremental_fetch_table_pred P st bars hst hop
    | backfill fuel feed lastTs now maxDays =>
      exact fetch_store_loop_table_pred P fuel feed _ _ _ st hst hop

/-- C6 (amended): provided every feed response delivers only 5-aligned
timestamps, every row ever stored by any sequence of backfill and
incremental-poll runs has a timestamp that is a multiple of 5; the code
itself performs no alignment check. -/
theorem stored_ts_aligned (st : TrackState) (ops : List CollectorOp)
    (hst : ∀ p ∈ st.table, p.1 % 5 = 0)
    (hops : ∀ op ∈ ops, ∀ b ∈ opBars op, b.date % 5 = 0) :
    ∀ p ∈ (runOps st ops).table, p.1 % 5 = 0 :=
  runOps_table_pred (fun ts => ts % 5 = 0) st ops hst hops

/-- Instantiation of `stored_ts_aligned`: a run over an aligned feed
response leaves the sample row (ts = 10) aligned. -/
theorem stored_ts_aligned_witness : (rowOfBar sampleBar10).1 % 5 = 0 :=
  stored_ts_aligned ⟨[], none⟩ opsAligned (by decide) (by decide)
    (rowOfBar sampleBar10) (by decide)

/-- C6 (counterexample): the code persists whatever timestamps the feed
returns — a single incremental response with ts = 7 reaches a store state
holding a row whose timestamp is not a multiple of 5. -/
theorem stored_ts_misaligned_reachable :
    (runOps ⟨[], none⟩ [CollectorOp.incr [⟨7, 1, 1, 1, 1, 0, 0, 0⟩]]).table =
      [((7 : Int), ⟨1, 1, 1, 1, 0, 0, 0⟩)]
    ∧ ¬((7 : Int) % 5 = 0) := by
  exact ⟨by decide, by decide⟩

/-! ### Monotonicity of the cached last timestamp -/

theorem optLe_refl (a : Option Int) : optLe a a := by
  cases a <;> simp [optLe]

theorem optLe_trans {a b c : Option Int} (h1 : optLe a b) (h2 : optLe b c) :
    optLe a c := by
  cases a <;> cases b <;> cases c <;> simp [optLe] at * <;> omega

theorem optLe_some_max (a : Option Int) (m : Int) :
    optLe a (some (max (a.getD 0) m)) := by
  cases a with
  | none => simp [optLe]
  | some x => simpa [optLe, Option.getD] using le_max_left x m

theorem optLe_incremental (st : TrackState) (bars : List FeedBar) :
    optLe st.last_ts (incremental_fetch st bars).last_ts := by
  rcases incremental_fetch_cases st bars with he | he <;> rw [he]
  · exact optLe_refl _
  · exact optLe_some_max st.last_ts _

theorem optLe_store_window (k : Int) (st : TrackState) (bars : List FeedBar) :
    optLe st.last_ts (store_window k st bars).last_ts := by
  rcases store_window_cases k st bars with he | he <;> rw [he]
  · exact optLe_refl _
  · exact optLe_some_max st.last_ts _

theorem optLe_fetch_store_loop (fuel : Nat) (feed : List (List FeedBar))
    (s curEnd e : Int) (st : TrackState) :
    optLe st.last_ts (fetch_store_loop fuel feed s curEnd e st).1.last_ts := by
  induction fuel generalizing feed s curEnd st with
  | zero => exact optLe_refl _
  | succ n ih =>
    by_cases hc : curEnd ≤ e + 1
    · rw [fetch_store_loop_succ_pos n feed s curEnd e st hc]
      exact optLe_trans (optLe_store_window s st (feed.headD [])) (ih _ _ _ _)
    · rw [fetch_store_loop_succ_neg n feed s curEnd e st hc]
      exact optLe_refl _

theorem optLe_applyOp (st : TrackState) (op : CollectorOp) :
    optLe st.last_ts (applyOp st op).last_ts := by
  cases op with
  | incr bars => exact optLe_incremental st bars
  | backfill fuel feed lastTs now maxDays => exact optLe_fetch_store_loop fuel feed _ _ _ st

theorem optLe_runOps (st : TrackState) (ops : List CollectorOp) :
    optLe st.last_ts (runOps st ops).last_ts := by
  induction ops generalizing st with
  | nil => exact optLe_refl _
  | cons op rest ih => exact optLe_trans (optLe_applyOp st op) (ih (applyOp st op))

/-- C10: both persistence paths replace the cached last timestamp by the
maximum of its previous value (absent counting as 0) and the largest
timestamp of the batch just written, and consequently the cache is
monotone non-decreasing across any sequence of fetch-and-store
operations. -/
theorem last_ts_monotone (st : TrackState) (ops : List CollectorOp)
    (bars : List FeedBar) (keepFrom : Int) (hb : bars ≠ [])
    (hr : rowsOf (bars.filter (fun b => keepFrom ≤ b.date)) ≠ []) :
    (incremental_fetch st bars).last_ts =
      some (max (st.last_ts.getD 0) (maxTsOf (rowsOf bars)))
    ∧ (store_window keepFrom st bars).last_ts =
      some (max (st.last_ts.getD 0)
        (maxTsOf (rowsOf (bars.filter (fun b => keepFrom ≤ b.date)))))
    ∧ optLe st.last_ts (runOps st ops).last_ts :=
  ⟨by rw [incremental_fetch_eq st bars hb],
   by rw [store_window_eq keepFrom st bars hb hr],
   optLe_runOps st ops⟩

/-- Instantiation of `last_ts_monotone`: a cache at 3 never decreases
across a concrete run. -/
theorem last_ts_monotone_witness :
    optLe (TrackState.mk [] (some 3)).last_ts
      (runOps ⟨[], some 3⟩ opsAligned).last_ts :=
  (last_ts_monotone ⟨[], some 3⟩ opsAligned [sampleBar10] 0 (by decide)
    (by decide)).2.2

/-- C8: in the connection monitor, each iteration waits the current
backoff delay; a failed connect then doubles the delay (capped at the
configured maximum) while a successful connect resets it to the base
delay; with base 1.5 s and cap 30 s, three consecutive failures schedule
the delays 1.5 s, 3.0 s, 6.0 s. -/
theorem backoff_delays (cfg : IBConfigR) (b : BackoffR) :
    monitorStep cfg b false = (b.current, ⟨b.base, min (b.current * 2) b.max_, b.max_⟩)
    ∧ monitorStep cfg b true =
      (b.current, ⟨cfg.base_retry_delay, cfg.base_retry_delay, cfg.max_retry_delay⟩)
    ∧ (monitorStep cfg b false).2.current ≤ b.max_
    ∧ (monitorRun ⟨3/2, 30⟩ ⟨3/2, 3/2, 30⟩ [false, false, false]).1 =
      [3/2, 3, 6] := by
  refine ⟨rfl, rfl, min_le_right _ _, ?_⟩
  norm_num [monitorRun, monitorStep, BackoffR.next, min_def]

/-- C9 (amended): for the two destinations the client supports, the send
returns a boolean and raises nothing — `false` as soon as the destination
is disabled and otherwise the conjunction of the per-chunk outcomes. -/
theorem send_text_valid_destinations (cfg : TelegramCfg) (text : List Char)
    (post : Nat → Bool) :
    send_text_sync cfg text "logs" post =
      .ok (cfg.enabled_logs && (pyChunk text MAX_LEN).enum.all (fun p => post p.1))
    ∧ send_text_sync cfg text "trade" post =
      .ok (cfg.enabled_trade && (pyChunk text MAX_LEN).enum.all (fun p => post p.1)) := by
  constructor
  · cases hE : cfg.enabled_logs <;>
      simp [send_text_sync, resolve_destination, hE]
  · cases hE : cfg.enabled_trade <;>
      simp [send_text_sync, resolve_destination, hE]

/-- C9 (counterexample): `send_text_sync` resolves the destination outside
any exception handler, so an unknown destination name raises (the
`ValueError` of `_resolve_destination`) instead of returning a value. -/
theorem send_text_unknown_destination_raises :
    send_text_sync ⟨true, true, "1", "2"⟩ "hi".data "x" (fun _ => true) =
      .error "unknown destination: x" := by rfl

/-! ### Position watcher lemmas -/

theorem blLookup_blSet_self (bl : Baseline) (cid : Int) (q : ℚ) :
    blLookup (blSet bl cid q) cid = some q := by
  induction bl with
  | nil => simp [blSet, blLookup]
  | cons p rest ih =>
    by_cases hp : p.1 = cid
    · simp [blSet, blLookup, hp]
    · simp [blSet, blLookup, hp, ih]

/-- C1: an update for an instrument with no prior baseline entry records
the new quantity silently (no event, baseline set), and the sequence
unseen→5, 5→5, 5→0 on a fresh watcher emits exactly one event: a Closed
with side LONG from the previous quantity 5. -/
theorem first_sight_silent (bl : Baseline) (cid : Int) (q : ℚ)
    (h : blLookup bl cid = none) :
    on_update_portfolio bl (some cid) q = (blSet bl cid q, [])
    ∧ blLookup (blSet bl cid q) cid = some q
    ∧ (run_updates [] [(some 1, 5), (some 1, 5), (some 1, 0)]).2 =
      [PosEvent.Closed Side.LONG 5] := by
  refine ⟨?_, blLookup_blSet_self bl cid q, by decide⟩
  simp [on_update_portfolio, h]

/-- Instantiation of `first_sight_silent` at an empty baseline. -/
theorem first_sight_silent_witness :
    on_update_portfolio [] (some 1) 5 = (blSet [] 1 5, []) :=
  (first_sight_silent [] 1 5 rfl).1

/-- C2: when the previous baseline quantity and the new quantity are both
above the zero epsilon in magnitude and carry opposite signs, the update
is classified as exactly one Reversed event from the previous side to the
new side; concretely, unseen→−3 then −3→2 emits exactly one event,
Reversed SHORT→LONG. -/
theorem reversal_single_event (bl : Baseline) (cid : Int) (prev newQ : ℚ)
    (hprev : blLookup bl cid = some prev)
    (h1 : (1 : ℚ)/100000000 < |prev|) (h2 : (1 : ℚ)/100000000 < |newQ|)
    (hsign : ¬(0 < prev ↔ 0 < newQ)) :
    on_update_portfolio bl (some cid) newQ =
      (blSet bl cid newQ, [.Reversed (sideOf prev) (sideOf newQ) prev newQ])
    ∧ (run_updates [] [(some 1, -3), (some 1, 2)]).2 =
      [PosEvent.Reversed Side.SHORT Side.LONG (-3) 2] := by
  have heps : (0 : ℚ) < 1/100000000 := by norm_num
  have hp0 : prev ≠ 0 := by
    intro hz
    rw [hz, abs_zero] at h1
    exact absurd h1 (not_lt.mpr (le_of_lt heps))
  have hn0 : newQ ≠ 0 := by
    intro hz
    rw [hz, abs_zero] at h2
    exact absurd h2 (not_lt.mpr (le_of_lt heps))
  refine ⟨?_, by decide⟩
  simp only [on_update_portfolio, hprev, Option.getD_some]
  rw [if_neg (by simp), if_pos ⟨hp0, hn0, hsign⟩]

/-- Instantiation of `reversal_single_event` at the baseline −3 and the
update to 2. -/
theorem reversal_single_event_witness :
    on_update_portfolio [((1 : Int), (-3 : ℚ))] (some 1) 2 =
      (blSet [((1 : Int), (-3 : ℚ))] 1 2,
       [.Reversed (sideOf (-3)) (sideOf 2) (-3) 2]) :=
  (reversal_single_event [((1 : Int), (-3 : ℚ))] 1 (-3) 2 (by decide)
    (by norm_num) (by norm_num) (by norm_num)).1

/-! ### Lemmas about rfind and normalization -/

theorem rfindC_ge_neg_one (s : List Char) (c : Char) : -1 ≤ rfindC s c := by
  induction s with
  | nil => simp [rfindC]
  | cons a rest ih =>
    simp only [rfindC]
    split
    · omega
    · split <;> omega

theorem rfindC_lt_length (s : List Char) (c : Char) :
    rfindC s c < (s.length : Int) := by
  induction s with
  | nil => simp [rfindC]
  | cons a rest ih =>
    simp only [rfindC, List.length_cons]
    split
    · push_cast
      omega
    · split <;> push_cast <;> omega

theorem rfindC_neg_eq (s : List Char) (c : Char) (h : rfindC s c < 0) :
    rfindC s c = -1 := by
  have := rfindC_ge_neg_one s c
  omega

theorem rfindC_nonneg_iff (s : List Char) (c : Char) :
    0 ≤ rfindC s c ↔ c ∈ s := by
  induction s with
  | nil => simp [rfindC]
  | cons a rest ih =>
    simp only [rfindC, List.mem_cons]
    split
    · rename_i hr
      constructor
      · intro _
        exact Or.inr (ih.mp hr)
      · intro _
        omega
    · rename_i hr
      split
      · rename_i ha
        simp [ha.symm]
      · rename_i ha
        constructor
        · intro hc
          omega
        · rintro (hc | hc)
          · exact absurd hc.symm ha
          · exact absurd (ih.mpr hc) hr

theorem rfindC_cons (a : Char) (l : List Char) (c : Char) :
    rfindC (a :: l) c =
      if 0 ≤ rfindC l c then rfindC l c + 1
      else if a = c then 0 else -1 := rfl

theorem rfindC_append (xs ys : List Char) (c : Char) :
    rfindC (xs ++ ys) c =
      if 0 ≤ rfindC ys c then (xs.length : Int) + rfindC ys c
      else rfindC xs c := by
  induction xs with
  | nil =>
    have h0 := rfindC_ge_neg_one ys c
    simp only [List.nil_append, List.length_nil]
    split
    · omega
    · simp only [rfindC]
      omega
  | cons a rest ih =>
    rw [List.cons_append, rfindC_cons, ih, List.length_cons]
    by_cases hy : 0 ≤ rfindC ys c
    · simp only [if_pos hy]
      rw [if_pos (by positivity)]
      push_cast
      ring
    · simp only [if_neg hy]
      rw [rfindC_cons]

theorem rfindC_getD (s : List Char) (c : Char) (h : 0 ≤ rfindC s c) :
    s.getD (rfindC s c).toNat ' ' = c := by
  induction s with
  | nil => simp [rfindC] at h
  | cons a rest ih =>
    rw [rfindC_cons] at h ⊢
    by_cases hr : 0 ≤ rfindC rest c
    · rw [if_pos hr] at h ⊢
      have ht : (rfindC rest c + 1).toNat = (rfindC rest c).toNat + 1 := by omega
      rw [ht]
      simpa [List.getD_cons_succ] using ih hr
    · rw [if_neg hr] at h ⊢
      by_cases ha : a = c
      · rw [if_pos ha] at h ⊢
        simpa using ha
      · rw [if_neg ha] at h
        omega

theorem le_rfindC_of_getD (s : List Char) (c : Char) (j : Nat)
    (hj : j < s.length) (h : s.getD j ' ' = c) : (j : Int) ≤ rfindC s c := by
  induction s generalizing j with
  | nil => simp at hj
  | cons a rest ih =>
    cases j with
    | zero =>
      simp only [List.getD_cons_zero] at h
      simp only [rfindC, h]
      split
      · omega
      · simp
    | succ k =>
      simp only [List.getD_cons_succ] at h
      simp only [List.length_cons, Nat.succ_lt_succ_iff] at hj
      have hk := ih k hj h
      simp only [rfindC]
      rw [if_pos (by omega)]
      push_cast
      omega

theorem dropWhile_id_of_all (p : Char → Bool) (s : List Char)
    (h : ∀ c ∈ s, p c = false) : s.dropWhile p = s := by
  cases s with
  | nil => rfl
  | cons a rest => simp [List.dropWhile_cons, h a (List.mem_cons_self a rest)]

theorem map_toUpper_id (s : List Char) (h : ∀ c ∈ s, c.toUpper = c) :
    s.map Char.toUpper = s := by
  induction s with
  | nil => rfl
  | cons a rest ih =>
    simp only [List.map_cons, h a (List.mem_cons_self a rest)]
    rw [ih (fun c hc => h c (List.mem_cons_of_mem a hc))]

theorem pyNormalize_id (s : List Char)
    (h : ∀ c ∈ s, c.isWhitespace = false ∧ c.toUpper = c) : pyNormalize s = s := by
  have hws : ∀ c ∈ s, c.isWhitespace = false := fun c hc => (h c hc).1
  have h1 : s.dropWhile Char.isWhitespace = s := dropWhile_id_of_all _ s hws
  have h2 : s.reverse.dropWhile Char.isWhitespace = s.reverse :=
    dropWhile_id_of_all _ s.reverse (fun c hc => hws c (List.mem_reverse.mp hc))
  unfold pyNormalize pyStrip
  rw [h1, h2, List.reverse_reverse]
  exact map_toUpper_id s (fun c hc => (h c hc).2)

theorem month_char_props :
    ∀ c ∈ MONTH_SEQ, c.isWhitespace = false ∧ c.toUpper = c := by decide

theorem take_append_len (xs ys : List Char) : (xs ++ ys).take xs.length = xs := by
  induction xs with
  | nil => rfl
  | cons a rest ih => simp [ih]

theorem getD_append_len (xs : List Char) (y : Char) (ys : List Char) (dft : Char) :
    (xs ++ y :: ys).getD xs.length dft = y := by
  induction xs with
  | nil => rfl
  | cons a rest ih => simpa using ih

theorem drop_append_len_succ (xs : List Char) (y : Char) (ys : List Char) :
    (xs ++ y :: ys).drop (xs.length + 1) = ys := by
  induction xs with
  | nil => rfl
  | cons a rest ih => simpa using ih

theorem max4_eq_of (a b c d L : Int) (ha : a ≤ L) (hb : b ≤ L) (hc : c ≤ L)
    (hd : d ≤ L) (h : a = L ∨ b = L ∨ c = L ∨ d = L) :
    max (max a b) (max c d) = L := by
  refine le_antisymm (max_le (max_le ha hb) (max_le hc hd)) ?_
  rcases h with rfl | rfl | rfl | rfl
  · exact le_trans (le_max_left a b) (le_max_left _ _)
  · exact le_trans (le_max_right a b) (le_max_left _ _)
  · exact le_trans (le_max_left c d) (le_max_right _ _)
  · exact le_trans (le_max_right c d) (le_max_right _ _)

theorem rfindC_pair (mon d c : Char) (hd : d ≠ c) :
    rfindC [mon, d] c = if mon = c then 0 else -1 := by
  simp [rfindC, hd]

theorem monthMax_append_valid (root : List Char) (mon d : Char)
    (hmon : mon ∈ MONTH_SEQ) (hd : ∀ c ∈ MONTH_SEQ, d ≠ c) :
    monthMax (root ++ [mon, d]) = (root.length : Int) := by
  have key : ∀ c ∈ MONTH_SEQ, rfindC (root ++ [mon, d]) c =
      if mon = c then (root.length : Int) else rfindC root c := by
    intro c hc
    rw [rfindC_append, rfindC_pair mon d c (hd c hc)]
    by_cases hm : mon = c
    · simp [hm]
    · simp [hm]
  have hlt : ∀ c, rfindC root c < (root.length : Int) := fun c => rfindC_lt_length root c
  have hH := key 'H' (by decide)
  have hM := key 'M' (by decide)
  have hU := key 'U' (by decide)
  have hZ := key 'Z' (by decide)
  unfold monthMax
  fin_cases hmon
  · rw [hH, hM, hU, hZ]
    simp only [if_pos rfl]
    refine max4_eq_of _ _ _ _ _ le_rfl ?_ ?_ ?_ (Or.inl rfl) <;>
      · rw [if_neg (by decide)]
        exact le_of_lt (hlt _)
  · rw [hH, hM, hU, hZ]
    refine max4_eq_of _ _ _ _ _ ?_ ?_ ?_ ?_ (Or.inr (Or.inl ?_)) <;>
      first
        | (rw [if_neg (by decide)]; exact le_of_lt (hlt _))
        | (rw [if_pos rfl])
  · rw [hH, hM, hU, hZ]
    refine max4_eq_of _ _ _ _ _ ?_ ?_ ?_ ?_ (Or.inr (Or.inr (Or.inl ?_))) <;>
      first
        | (rw [if_neg (by decide)]; exact le_of_lt (hlt _))
        | (rw [if_pos rfl])
  · rw [hH, hM, hU, hZ]
    refine max4_eq_of _ _ _ _ _ ?_ ?_ ?_ ?_ (Or.inr (Or.inr (Or.inr ?_))) <;>
      first
        | (rw [if_neg (by decide)]; exact le_of_lt (hlt _))
        | (rw [if_pos rfl])

theorem parse_valid (root : List Char) (mon d : Char)
    (hroot : root ≠ [])
    (hchars : ∀ c ∈ root, c.isWhitespace = false ∧ c.toUpper = c)
    (hmon : mon ∈ MONTH_SEQ)
    (hdws : d.isWhitespace = false) (hdup : d.toUpper = d)
    (hdm : ∀ c ∈ MONTH_SEQ, d ≠ c) :
    parse_local_symbol (root ++ [mon, d]) = .ok (root, mon, [d]) := by
  have hnorm : pyNormalize (root ++ [mon, d]) = root ++ [mon, d] := by
    refine pyNormalize_id _ ?_
    intro c hc
    rcases List.mem_append.mp hc with hcr | hct
    · exact hchars c hcr
    · rw [List.mem_cons, List.mem_singleton] at hct
      rcases hct with rfl | rfl
      · exact month_char_props c hmon
      · exact ⟨hdws, hdup⟩
  have hmm : monthMax (root ++ [mon, d]) = (root.length : Int) :=
    monthMax_append_valid root mon d hmon hdm
  have hL : 1 ≤ root.length := by
    cases root with
    | nil => exact absurd rfl hroot
    | cons a rest => simp
  have hlen : (root ++ [mon, d]).length = root.length + 2 := by simp
  simp only [parse_local_symbol]
  rw [hnorm, hmm, hlen]
  rw [if_neg (by push_cast; omega)]
  have htn : ((root.length : Int)).toNat = root.length := by omega
  rw [htn, take_append_len root [mon, d], getD_append_len root mon [d] ' ',
    drop_append_len_succ root mon [d]]
  rw [if_neg (by simp)]

theorem digit_char_facts (v : Nat) (hv : v < 10) :
    (Nat.digitChar v).isWhitespace = false ∧ (Nat.digitChar v).toUpper = Nat.digitChar v
    ∧ (∀ c ∈ MONTH_SEQ, Nat.digitChar v ≠ c)
    ∧ pyInt [Nat.digitChar v] = .ok (v : Int)
    ∧ intToChars (v : Int) = [Nat.digitChar v] := by
  interval_cases v <;> exact ⟨rfl, rfl, by decide, rfl, rfl⟩

theorem neighbors_quarter_eval (ls : List Char) (root : List Char) (mon : Char)
    (yt : List Char) (yi : Int)
    (hp : parse_local_symbol ls = .ok (root, mon, yt))
    (hyi : pyInt yt = .ok yi) :
    neighbors_quarter ls = .ok
      ((if mon = 'H' then root ++ 'U' :: intToChars (yi - 1)
        else root ++ MONTH_SEQ.getD ((listIndexOf MONTH_SEQ mon + 3) % 4) ' ' :: intToChars yi),
       (if mon = 'Z' then root ++ 'H' :: intToChars (yi + 1)
        else root ++ MONTH_SEQ.getD ((listIndexOf MONTH_SEQ mon + 1) % 4) ' ' ::
          intToChars (if mon = 'Z' then yi + 1 else yi))) := by
  unfold neighbors_quarter
  rw [hp]
  dsimp only
  rw [hyi]

theorem append_cons_ne (xs : List Char) (a b : Char) (t1 t2 : List Char)
    (h : a ≠ b) : xs ++ a :: t1 ≠ xs ++ b :: t2 := by
  induction xs with
  | nil =>
    intro he
    injection he with h1 _
    exact h h1
  | cons x rest ih =>
    intro he
    injection he with _ h2
    exact ih h2

/-- C3: for every valid quarterly symbol ROOT+MONTH+YEARDIGIT with MONTH
in H, M, U, Z, the computed neighbors step one position in the cycle
H→M→U→Z with the year digit unchanged, except that the previous of an H
contract is month U with the year decremented and the next of a Z
contract is month H with the year incremented; the three roster symbols
are pairwise distinct, and the two concrete rosters of the spec hold. -/
theorem roster_step (root : List Char) (mon : Char) (v : Nat)
    (hroot : root ≠ [])
    (hchars : ∀ c ∈ root, c.isWhitespace = false ∧ c.toUpper = c)
    (hmon : mon ∈ MONTH_SEQ) (hv : v < 10) :
    neighbors_quarter (root ++ [mon, Nat.digitChar v]) = .ok (specRoster root mon v)
    ∧ (specRoster root mon v).1 ≠ root ++ [mon, Nat.digitChar v]
    ∧ root ++ [mon, Nat.digitChar v] ≠ (specRoster root mon v).2
    ∧ (specRoster root mon v).1 ≠ (specRoster root mon v).2
    ∧ neighbors_quarter "MNQZ5".data = .ok ("MNQU5".data, "MNQH6".data)
    ∧ neighbors_quarter "MNQH6".data = .ok ("MNQU5".data, "MNQM6".data) := by
  obtain ⟨hdws, hdup, hdm, hpy, hic⟩ := digit_char_facts v hv
  have hp := parse_valid root mon (Nat.digitChar v) hroot hchars hmon hdws hdup hdm
  have he := neighbors_quarter_eval (root ++ [mon, Nat.digitChar v]) root mon
    [Nat.digitChar v] (v : Int) hp hpy
  refine ⟨?_, ?_, ?_, ?_, by rfl, by rfl⟩
  · rw [he]
    fin_cases hmon <;>
      simp [specRoster, specPrevMonth, specNextMonth, listIndexOf, MONTH_SEQ, hic]
  · fin_cases hmon <;>
      simp only [specRoster] <;>
      first
        | exact append_cons_ne root _ _ _ _ (by decide)
        | (rw [if_pos rfl]; exact append_cons_ne root _ _ _ _ (by decide))
        | (rw [if_neg (by decide)]; exact append_cons_ne root _ _ _ _ (by decide))
  · fin_cases hmon <;>
      simp only [specRoster] <;>
      first
        | exact append_cons_ne root _ _ _ _ (by decide)
        | (rw [if_pos rfl]; exact append_cons_ne root _ _ _ _ (by decide))
        | (rw [if_neg (by decide)]; exact append_cons_ne root _ _ _ _ (by decide))
  · fin_cases hmon <;>
      simp only [specRoster] <;>
      first
        | exact append_cons_ne root _ _ _ _ (by decide)
        | (rw [if_pos rfl]; exact append_cons_ne root _ _ _ _ (by decide))
        | (rw [if_neg (by decide)]; exact append_cons_ne root _ _ _ _ (by decide))

/-- Instantiation of `roster_step` at the symbol MNQZ5. -/
theorem roster_step_witness :
    neighbors_quarter (['M', 'N', 'Q'] ++ ['Z', Nat.digitChar 5]) =
      .ok (specRoster ['M', 'N', 'Q'] 'Z' 5) :=
  (roster_step ['M', 'N', 'Q'] 'Z' 5 (by decide) (by decide) (by decide)
    (by decide)).1

theorem monthMax_lt_length (t : List Char) : monthMax t < (t.length : Int) := by
  have h1 := rfindC_lt_length t 'H'
  have h2 := rfindC_lt_length t 'M'
  have h3 := rfindC_lt_length t 'U'
  have h4 := rfindC_lt_length t 'Z'
  unfold monthMax
  simp only [max_lt_iff]
  exact ⟨⟨h1, h2⟩, h3, h4⟩

theorem rfindC_le_monthMax (t : List Char) (c : Char) (hc : c ∈ MONTH_SEQ) :
    rfindC t c ≤ monthMax t := by
  fin_cases hc
  · exact le_trans (le_max_left _ _) (le_max_left _ _)
  · exact le_trans (le_max_right _ _) (le_max_left _ _)
  · exact le_trans (le_max_left _ _) (le_max_right _ _)
  · exact le_trans (le_max_right _ _) (le_max_right _ _)

theorem monthMax_neg_iff (t : List Char) :
    monthMax t < 0 ↔ ∀ c ∈ t, c ∉ MONTH_SEQ := by
  constructor
  · intro h c hct hcm
    have hle := rfindC_le_monthMax t c hcm
    have hnn := (rfindC_nonneg_iff t c).mpr hct
    omega
  · intro h
    have hx : ∀ c ∈ MONTH_SEQ, rfindC t c < 0 := by
      intro c _
      by_contra hge
      push_neg at hge
      rcases (rfindC_nonneg_iff t c).mp hge with hmem
      have := h c hmem
      rename_i hcm
      exact this hcm
    unfold monthMax
    simp only [max_lt_iff]
    exact ⟨⟨hx 'H' (by decide), hx 'M' (by decide)⟩, hx 'U' (by decide),
      hx 'Z' (by decide)⟩

theorem monthMax_attained (t : List Char) :
    ∃ c ∈ MONTH_SEQ, rfindC t c = monthMax t := by
  unfold monthMax
  rcases max_choice (max (rfindC t 'H') (rfindC t 'M'))
      (max (rfindC t 'U') (rfindC t 'Z')) with h1 | h1 <;> rw [h1]
  · rcases max_choice (rfindC t 'H') (rfindC t 'M') with h2 | h2 <;> rw [h2]
    · exact ⟨'H', by decide, rfl⟩
    · exact ⟨'M', by decide, rfl⟩
  · rcases max_choice (rfindC t 'U') (rfindC t 'Z') with h2 | h2 <;> rw [h2]
    · exact ⟨'U', by decide, rfl⟩
    · exact ⟨'Z', by decide, rfl⟩

theorem getD_mem_of_lt (t : List Char) (i : Nat) (hi : i < t.length) (dft : Char) :
    t.getD i dft ∈ t := by
  induction t generalizing i with
  | nil => simp at hi
  | cons a rest ih =>
    cases i with
    | zero => simp
    | succ k =>
      simp only [List.length_cons, Nat.succ_lt_succ_iff] at hi
      simp only [List.getD_cons_succ]
      exact List.mem_cons_of_mem a (ih k hi)

theorem monthMax_isLast (t : List Char) (h : 0 ≤ monthMax t) :
    IsLastMonthIdx t (monthMax t).toNat := by
  obtain ⟨c, hcm, hce⟩ := monthMax_attained t
  have hlt := monthMax_lt_length t
  refine ⟨by omega, ?_, ?_⟩
  · have := rfindC_getD t c (by omega)
    rw [hce] at this
    rw [this]
    exact hcm
  · intro j hj hjm
    have hle := le_rfindC_of_getD t (t.getD j ' ') j hj rfl
    have hle2 := rfindC_le_monthMax t (t.getD j ' ') hjm
    omega

theorem isLast_eq_monthMax (t : List Char) (i : Nat) (h : IsLastMonthIdx t i) :
    (i : Int) = monthMax t := by
  obtain ⟨hlen, hmem, hmax⟩ := h
  have h1 : (i : Int) ≤ rfindC t (t.getD i ' ') :=
    le_rfindC_of_getD t (t.getD i ' ') i hlen rfl
  have h2 : rfindC t (t.getD i ' ') ≤ monthMax t :=
    rfindC_le_monthMax t (t.getD i ' ') hmem
  have h0 : 0 ≤ monthMax t := by omega
  obtain ⟨_, _, hmax2⟩ := monthMax_isLast t h0
  have h3 := hmax (monthMax t).toNat (by have := monthMax_lt_length t; omega)
    (monthMax_isLast t h0).2.1
  omega

/-- C7 (amended): after trimming and uppercasing, parsing raises the
malformed-symbol error exactly when no month letter from H, M, U, Z
occurs, or the last such letter is the first or the last character; for
every other input it returns the (root, month, year-tail) split without
error — the parser performs no check that a year digit follows the month
letter. -/
theorem parse_error_characterization (s : List Char) :
    ((exOk (parse_local_symbol s) = false) ↔
      (∀ c ∈ pyNormalize s, c ∉ MONTH_SEQ) ∨
      (∃ i : Nat, IsLastMonthIdx (pyNormalize s) i ∧
        (i = 0 ∨ i + 1 = (pyNormalize s).length)))
    ∧ (∀ i : Nat, IsLastMonthIdx (pyNormalize s) i → 0 < i →
        i + 1 < (pyNormalize s).length →
        parse_local_symbol s =
          .ok ((pyNormalize s).take i, (pyNormalize s).getD i ' ',
               (pyNormalize s).drop (i + 1))) := by
  set t := pyNormalize s with ht
  have hMlt := monthMax_lt_length t
  by_cases hneg : monthMax t < 0
  · have herr : parse_local_symbol s = .error "could not parse localSymbol" := by
      simp only [parse_local_symbol]
      rw [← ht, if_pos (Or.inl (by omega))]
    constructor
    · rw [herr]
      simp only [exOk]
      constructor
      · intro _
        exact Or.inl ((monthMax_neg_iff t).mp hneg)
      · intro _
        trivial
    · intro i hL h0 hlen
      have := isLast_eq_monthMax t i hL
      omega
  · push_neg at hneg
    have hpos : 0 ≤ monthMax t := hneg
    have hi0 := monthMax_isLast t hpos
    have huniq : ∀ i : Nat, IsLastMonthIdx t i → (i : Int) = monthMax t :=
      fun i hL => isLast_eq_monthMax t i hL
    have hmem0 : t.getD (monthMax t).toNat ' ' ∈ t := getD_mem_of_lt t _ (by omega) ' '
    have hnall : ¬(∀ c ∈ t, c ∉ MONTH_SEQ) := fun hall => hall _ hmem0 hi0.2.1
    by_cases hcond : monthMax t ≤ 0 ∨ monthMax t = (t.length : Int) - 1
    · have herr : parse_local_symbol s = .error "could not parse localSymbol" := by
        simp only [parse_local_symbol]
        rw [← ht, if_pos hcond]
      constructor
      · rw [herr]
        simp only [exOk]
        constructor
        · intro _
          refine Or.inr ⟨(monthMax t).toNat, hi0, ?_⟩
          omega
        · intro _
          trivial
      · intro i hL hi0p hlen
        have he := huniq i hL
        omega
    · push_neg at hcond
      obtain ⟨hg0, hne⟩ := hcond
      have hg1 : 1 ≤ monthMax t := by omega
      have hle : monthMax t + 1 < (t.length : Int) := by omega
      have hdrop : t.drop ((monthMax t).toNat + 1) ≠ [] := by
        intro hd
        have hl := List.length_drop ((monthMax t).toNat + 1) t
        rw [hd] at hl
        simp only [List.length_nil] at hl
        omega
      have hok : parse_local_symbol s =
          .ok (t.take (monthMax t).toNat, t.getD (monthMax t).toNat ' ',
            t.drop ((monthMax t).toNat + 1)) := by
        simp only [parse_local_symbol]
        rw [← ht, if_neg (by push_neg; constructor <;> omega), if_neg hdrop]
      constructor
      · rw [hok]
        simp only [exOk]
        constructor
        · intro hfalse
          simp at hfalse
        · rintro (hall | ⟨i, hL, hio⟩)
          · exact absurd hall hnall
          · have he := huniq i hL
            omega
      · intro i hL hi0p hlen
        have he := huniq i hL
        have hieq : i = (monthMax t).toNat := by omega
        rw [hok, hieq]

/-- Instantiation of `parse_error_characterization` at the well-formed
symbol MNQZ5 with last month letter at position 3. -/
theorem parse_error_characterization_witness :
    parse_local_symbol "MNQZ5".data =
      .ok ((pyNormalize "MNQZ5".data).take 3,
        (pyNormalize "MNQZ5".data).getD 3 ' ',
        (pyNormalize "MNQZ5".data).drop (3 + 1)) :=
  (parse_error_characterization "MNQZ5".data).2 3 (by decide) (by decide) (by decide)

/-- C7 (counterexample): the parser never validates that a year digit
follows the month letter — MNQZX parses successfully into root MNQ,
month Z and tail X although X is not a digit, contradicting the claim
that such inputs raise a malformed-symbol error. -/
theorem parse_ok_nondigit_tail :
    parse_local_symbol "MNQZX".data = .ok ("MNQ".data, 'Z', "X".data)
    ∧ 'X'.isDigit = false := ⟨by rfl, by rfl⟩

theorem backfillStart_none (now maxDays : Int) :
    backfillStart none now maxDays = now - min 1 maxDays * 86400 := by
  have h2 : min 1 maxDays * 86400 ≤ maxDays * 86400 :=
    mul_le_mul_of_nonneg_right (min_le_right 1 maxDays) (by norm_num)
  simp only [backfillStart]
  exact max_eq_left (by omega)

theorem backfillStart_some_ge (l now maxDays : Int) :
    l + 5 ≤ backfillStart (some l) now maxDays := by
  simp only [backfillStart]
  exact le_max_left _ _

theorem fetch_store_loop_windows_le (fuel : Nat) (feed : List (List FeedBar))
    (s curEnd e : Int) (st : TrackState) (hce : curEnd ≤ e) :
    ∀ w ∈ (fetch_store_loop fuel feed s curEnd e st).2, w.reqEnd ≤ e := by
  induction fuel generalizing feed s curEnd st with
  | zero => simp [fetch_store_loop]
  | succ n ih =>
    by_cases hc : curEnd ≤ e + 1
    · rw [fetch_store_loop_succ_pos n feed s curEnd e st hc]
      intro w hw
      rcases List.mem_cons.mp hw with rfl | hw2
      · exact hce
      · exact ih feed.tail (curEnd + 1) (min (curEnd + 1 + 86400) e) _
          (min_le_right _ _) w hw2
    · rw [fetch_store_loop_succ_neg n feed s curEnd e st hc]
      simp

theorem fetch_store_loop_table_gt (L : Int) (fuel : Nat)
    (feed : List (List FeedBar)) (s curEnd e : Int) (st : TrackState)
    (hs : L < s) (hce : L ≤ curEnd) (he : L ≤ e)
    (hst : ∀ p ∈ st.table, L < p.1) :
    ∀ p ∈ (fetch_store_loop fuel feed s curEnd e st).1.table, L < p.1 := by
  induction fuel generalizing feed s curEnd st with
  | zero => exact hst
  | succ n ih =>
    by_cases hc : curEnd ≤ e + 1
    · rw [fetch_store_loop_succ_pos n feed s curEnd e st hc]
      refine ih feed.tail (curEnd + 1) (min (curEnd + 1 + 86400) e)
        (store_window s st (feed.headD [])) (by omega)
        (le_min (by omega) he) ?_
      refine store_window_table_pred (fun ts => L < ts) s st (feed.headD []) hst ?_
      intro b _ hk
      omega
    · rw [fetch_store_loop_succ_neg n feed s curEnd e st hc]
      exact hst

/-- C4 (amended): the backfill start is `last_ts + 5` clamped below by
`now - max_backfill_window` (`now - min(1 day, max window)` when no tail
is stored); every issued request ends at or before `now`; and because
each window discards fetched bars with `ts < window start` before
persistence, no bar with timestamp at or before the stored tail `L` is
ever persisted — but the requests themselves are NOT confined to
`[L+5, now]`: the 30-second duration floor makes requests overlap
already-stored timestamps (see the counterexample). -/
theorem backfill_window_bounds (fuel : Nat) (feed : List (List FeedBar))
    (L now maxDays : Int) (st : TrackState) (hLnow : L ≤ now)
    (hst : ∀ p ∈ st.table, L < p.1) :
    backfillStart none now maxDays = now - min 1 maxDays * 86400
    ∧ (∀ w ∈ (backfill_from_db_tail fuel feed (some L) now maxDays st).2,
        w.reqEnd ≤ now)
    ∧ (∀ p ∈ (backfill_from_db_tail fuel feed (some L) now maxDays st).1.table,
        L < p.1) := by
  have hs : L < backfillStart (some L) now maxDays := by
    have := backfillStart_some_ge L now maxDays
    omega
  refine ⟨backfillStart_none now maxDays, ?_, ?_⟩
  · exact fetch_store_loop_windows_le fuel feed _ _ now st (min_le_right _ _)
  · refine fetch_store_loop_table_gt L fuel feed _ _ now st hs
      (le_min (by omega) hLnow) hLnow hst

/-- Instantiation of `backfill_window_bounds`: the no-tail default start. -/
theorem backfill_window_bounds_witness :
    backfillStart none 1000000 10 = 1000000 - min 1 10 * 86400 :=
  (backfill_window_bounds 1 [] 999990 1000000 10 ⟨[], some 999990⟩ (by decide)
    (by decide)).1

/-- C4 (counterexample): with stored tail L = 999990 and now = 1000000,
the single backfill window requests 30 seconds ending at `now` — the
request starts at 999970, before `L + 5 = 999995` and before `L` itself,
so the engine re-requests already-stored timestamps (the duration floor
`max(duration, 30)` widens every short window). -/
theorem backfill_requests_before_resume :
    (backfill_from_db_tail 1 [] (some 999990) 1000000 10 ⟨[], some 999990⟩).2 =
      [⟨999970, 1000000, 999995⟩]
    ∧ (999970 : Int) < 999990 + 5 := ⟨by decide, by decide⟩
